import Mathlib

/-!
Verification of the resilience primitives of the `it` toolkit:
the circuit breaker (package `cb`), the concurrency-limiting load balancer
(package `lb`), the token-bucket rate limiter (package `rl`) and the
exponential-backoff retry helper (package `retry`).

Each Go function is shallowly embedded as a Lean definition.  Time is
modelled in integer nanoseconds (Go `time.Duration` and `UnixNano` are
`int64` nanosecond counts); Go `float64` arithmetic in the retry package is
modelled exactly over `ℚ`, ignoring floating-point rounding.  Concurrency is
modelled by explicit transition systems whose steps correspond to the
synchronisation points of the source (buffered-channel send/receive and
`select` resolution); `select` among several ready cases is modelled as a
nondeterministic choice, enumerated as a list of possible outcomes.
-/

namespace Spec2Proof

/-! ## Circuit breaker: package `cb` (src/lb/loadbalancer.go, second file) -/

namespace cb

/-- `CircuitBreaker` configuration: the atomic counters (`failures`,
`lastFailure`) are kept separately in `CBState`; `threshold` is the `int64`
failure threshold; `timeout` is the cool-down `time.Duration` in
nanoseconds. -/
structure CircuitBreaker where
  threshold : Int
  timeout : Int
deriving DecidableEq

/-- The mutable part of the breaker: `failures` (atomic.Int64) and
`lastFailure` (atomic.Int64, a `UnixNano` timestamp). -/
structure CBState where
  failures : Int
  lastFailure : Int
deriving DecidableEq

/-- `NewCircuitBreaker`: a threshold below 1 is coerced to 1. -/
def NewCircuitBreaker (threshold timeout : Int) : CircuitBreaker :=
  { threshold := if threshold < 1 then 1 else threshold, timeout := timeout }

/-- Fresh breaker state: both atomics start at zero. -/
def initState : CBState := ⟨0, 0⟩

/-- Go `time.Unix(sec, nsec)` as an instant in nanoseconds since the epoch. -/
def timeUnix (sec nsec : Int) : Int := sec * 1000000000 + nsec

/-- The `LastFailure` accessor: `time.Unix(cb.lastFailure.Load(), 0)` —
the stored nanosecond count is passed in the seconds position. -/
def LastFailure (s : CBState) : Int := timeUnix s.lastFailure 0

/-- The decoding used inside `Execute` and `canTry`:
`time.Unix(0, cb.lastFailure.Load())`. -/
def lastFailDecoded (s : CBState) : Int := timeUnix 0 s.lastFailure

/-- Result of one `Execute` call: `nil`, the open-circuit error, or the
operation's own error. -/
inductive CBResult (ε : Type) where
  | ok
  | circuitOpen
  | opError (e : ε)
deriving DecidableEq

/-- Outcome of one `Execute` call: the state left behind, the returned
error, and whether `fn` was invoked. -/
structure CBExec (ε : Type) where
  state : CBState
  result : CBResult ε
  invoked : Bool
deriving DecidableEq

/-- `recordFailure` / the failure branch of `Execute`:
`failures.Add(1); lastFailure.Store(time.Now().UnixNano())`. -/
def recordFailure (s : CBState) (now : Int) : CBState := ⟨s.failures + 1, now⟩

/-- The tail of `Execute` after the open-circuit check: run `fn` (whose
outcome is `fnErr`: `none` = success, `some e` = failure at instant `now`).
On failure the counters are updated and, if the new count meets the
threshold, `ErrCircuitOpen` is returned instead of `e`. -/
def runFn (cb : CircuitBreaker) (s : CBState) (now : Int) (fnErr : Option ε) : CBExec ε :=
  match fnErr with
  | none => ⟨s, .ok, true⟩
  | some e =>
    let s2 := recordFailure s now
    if cb.threshold ≤ s2.failures then ⟨s2, .circuitOpen, true⟩
    else ⟨s2, .opError e, true⟩

/-- `CircuitBreaker.Execute` at instant `now` (nanoseconds): if
`failures ≥ threshold` then with `timeout == 0` the circuit stays open;
otherwise if `time.Since(time.Unix(0, lastFailure)) ≤ timeout` it is still
open; past the cool-down the counters are reset before the probe.
Sequential model: the breaker is called by one goroutine at a time. -/
def Execute (cb : CircuitBreaker) (s : CBState) (now : Int) (fnErr : Option ε) : CBExec ε :=
  if cb.threshold ≤ s.failures then
    if cb.timeout = 0 then ⟨s, .circuitOpen, false⟩
    else if now - lastFailDecoded s ≤ cb.timeout then ⟨s, .circuitOpen, false⟩
    else runFn cb ⟨0, 0⟩ now fnErr
  else runFn cb s now fnErr

/-- `reset` (also `Reset`): store 0 into both atomics. -/
def reset : CBState := ⟨0, 0⟩

/-- Final state after a sequence of failing `Execute` calls, each given as
(call instant, the error the operation returns). -/
def runFails (cb : CircuitBreaker) (s : CBState) : List (Int × ε) → CBState
  | [] => s
  | (τ, e) :: rest => runFails cb (Execute cb s τ (some e)).state rest

/-- Per-call results (returned error, whether the operation was invoked) of
a sequence of failing `Execute` calls. -/
def traceFails (cb : CircuitBreaker) (s : CBState) : List (Int × ε) → List (CBResult ε × Bool)
  | [] => []
  | (τ, e) :: rest =>
    let x := Execute cb s τ (some e)
    (x.result, x.invoked) :: traceFails cb x.state rest

end cb

/-! ## Retry: `retry.WithBackoff` (src/retry/retry.go) -/

namespace retry

/-- `retry.Config`.  `Attempts` is a Go `int`; the delays are
`time.Duration`s and `Multiplier`/`RandomFactor` are `float64`s, all
modelled over `ℚ` (exact arithmetic). -/
structure Config where
  Attempts : Int
  InitialDelay : ℚ
  MaxDelay : ℚ
  Multiplier : ℚ
  RandomFactor : ℚ
deriving DecidableEq

/-- Whether `ctx.Done()` is ready at elapsed time `t`: the cancellation
fires at absolute time `c` (`none` = never).  Elapsed time advances only
through the sleeps; operations are modelled as instantaneous. -/
def ctxDone (cancelAt : Option ℚ) (t : ℚ) : Bool :=
  match cancelAt with
  | none => false
  | some c => decide (c ≤ t)

/-- The delay update at the end of an inter-attempt wait:
`delay = Duration(float64(delay) * Multiplier); if delay > MaxDelay { delay = MaxDelay }`. -/
def nextDelay (cfg : Config) (delay : ℚ) : ℚ :=
  let d := delay * cfg.Multiplier
  if cfg.MaxDelay < d then cfg.MaxDelay else d

/-- The realized sleep before a retry, for random draw `r`:
`jitter := rand.Float64() * float64(delay) * RandomFactor;
actualDelay := delay + jitter`. -/
def actualDelay (cfg : Config) (r delay : ℚ) : ℚ :=
  delay + r * delay * cfg.RandomFactor

/-- The exponential delay the loop holds in its `delay` variable before the
(j+1)-st retry: `InitialDelay` iterated `j` times through `nextDelay`. -/
def computedDelay (cfg : Config) (j : Nat) : ℚ :=
  (nextDelay cfg)^[j] cfg.InitialDelay

/-- The delay formula as the spec states it (for comparison with
`computedDelay`): the delay before attempt `k` (k ≥ 1) is
`min(initialDelay * multiplier^(k-1), maxDelay)`. -/
def specDelay (cfg : Config) (k : Nat) : ℚ :=
  min (cfg.InitialDelay * cfg.Multiplier ^ (k - 1)) cfg.MaxDelay

/-- What `WithBackoff` returns: success with a value, the cancellation
error (and the zero value), or exhaustion, returning the zero value and the
last error (`none` when no attempt ever ran, i.e. `lastError == nil`). -/
inductive RetryOutcome (ε T : Type) where
  | success (t : T)
  | canceled
  | exhausted (lastError : Option ε)
deriving DecidableEq

/-- Observable trace of one `WithBackoff` call: its return value, how many
times `operation` was invoked, and the sleeps performed (in order). -/
structure RunTrace (ε T : Type) where
  outcome : RetryOutcome ε T
  invocations : Nat
  sleeps : List ℚ
deriving DecidableEq

/-- The `for attempt := 0; attempt < config.Attempts; attempt++` loop of
`WithBackoff`.  `fuel` is the number of loop iterations left, `attemptIdx`
the current value of `attempt`, `delay` the current `delay` variable,
`elapsed` the wall-clock time consumed so far, `op n` the outcome of the
n-th invocation of `operation`, `rnd k` the `rand.Float64()` draw before
the k-th retry, and `sleepAcc` the sleeps so far in reverse order.
Each iteration first polls `ctx.Done()` (a `select` with `default`), then
for `attempt > 0` sleeps `delay + jitter` — `time.Sleep` does not watch the
context — updates `delay`, and finally invokes the operation. -/
def withBackoffLoop (cfg : Config) (op : Nat → Except ε T) (cancelAt : Option ℚ)
    (rnd : Nat → ℚ) :
    Nat → Nat → ℚ → ℚ → Option ε → Nat → List ℚ → RunTrace ε T
  | 0, _, _, _, lastError, inv, sleepAcc => ⟨.exhausted lastError, inv, sleepAcc.reverse⟩
  | fuel + 1, attemptIdx, delay, elapsed, _lastError, inv, sleepAcc =>
    if ctxDone cancelAt elapsed then ⟨.canceled, inv, sleepAcc.reverse⟩
    else if attemptIdx = 0 then
      match op (inv + 1) with
      | .ok t => ⟨.success t, inv + 1, sleepAcc.reverse⟩
      | .error e =>
        withBackoffLoop cfg op cancelAt rnd fuel (attemptIdx + 1) delay elapsed
          (some e) (inv + 1) sleepAcc
    else
      let a := actualDelay cfg (rnd attemptIdx) delay
      match op (inv + 1) with
      | .ok t => ⟨.success t, inv + 1, (a :: sleepAcc).reverse⟩
      | .error e =>
        withBackoffLoop cfg op cancelAt rnd fuel (attemptIdx + 1) (nextDelay cfg delay)
          (elapsed + a) (some e) (inv + 1) (a :: sleepAcc)

/-- `retry.WithBackoff`: run the loop from `attempt = 0` with
`delay = config.InitialDelay`; the loop body runs `max(Attempts, 0)`
times unless it returns early. -/
def WithBackoff (cfg : Config) (op : Nat → Except ε T) (cancelAt : Option ℚ)
    (rnd : Nat → ℚ) : RunTrace ε T :=
  withBackoffLoop cfg op cancelAt rnd cfg.Attempts.toNat 0 cfg.InitialDelay 0 none 0 []

end retry

/-! ## Load balancer: package `lb` (src/lb/loadbalancer.go, first file)

Two models of `LoadBalancer`, each tracing a different aspect of the code.

The first is a transition system for the admission discipline shared by
`Execute` and `ExecuteBalanced`: each in-flight call is a process that
either aborts while waiting (a `ctx.Done()`/`lb.ctx.Done()` select arm) or
sends on the buffered channel `lb.workers` (capacity `maxWorkers`, so the
send succeeds only while fewer than `maxWorkers` values are buffered) and
registers `defer func() { <-lb.workers }()`.  Go runs deferred calls on
every exit — normal return, error return, or panic — so a holder's single
exit transition performs the one deferred receive. -/

namespace lb

/-- Where one `Execute`/`ExecuteBalanced` call stands: still waiting on the
admission select, holding a slot (its operation may be running), or
returned. -/
inductive WPhase where
  | waiting
  | holding
  | finished
deriving DecidableEq

/-- One in-flight call: its phase, whether it ever sent on `lb.workers`,
and how many times its deferred `<-lb.workers` has run. -/
structure WProc where
  phase : WPhase
  acquired : Bool
  releases : Nat
deriving DecidableEq

/-- Number of values currently buffered in `lb.workers`: one per process
holding a slot (each holder sent once; its receive runs at exit). -/
def occupancy (ps : List WProc) : Nat :=
  ps.countP (fun p => decide (p.phase = WPhase.holding))

/-- Transitions of the admission system for a balancer with
`maxWorkers = max`.
* `spawn`: a new caller enters `Execute`/`ExecuteBalanced`.
* `acquire`: the select's `lb.workers <- struct{}{}` arm fires; a send on a
  buffered channel of capacity `max` requires fewer than `max` buffered
  values.
* `abort`: the `ctx.Done()` or `lb.ctx.Done()` arm fires instead; the call
  returns without ever sending.
* `finish`: the call returns (operation done, context check failed after
  acquisition, success, failure or panic); the deferred `<-lb.workers`
  runs exactly once here. -/
inductive Step (max : Nat) : List WProc → List WProc → Prop
  | spawn (ps : List WProc) :
      Step max ps (ps ++ [⟨.waiting, false, 0⟩])
  | acquire (l r : List WProc) (p : WProc) :
      p.phase = .waiting →
      occupancy (l ++ p :: r) < max →
      Step max (l ++ p :: r) (l ++ { p with phase := .holding, acquired := true } :: r)
  | abort (l r : List WProc) (p : WProc) :
      p.phase = .waiting →
      Step max (l ++ p :: r) (l ++ { p with phase := .finished } :: r)
  | finish (l r : List WProc) (p : WProc) :
      p.phase = .holding →
      Step max (l ++ p :: r)
        (l ++ { p with phase := .finished, releases := p.releases + 1 } :: r)

/-- States reachable from a freshly constructed balancer (no callers). -/
def Reachable (max : Nat) (ps : List WProc) : Prop :=
  Relation.ReflTransGen (Step max) [] ps

/-- The inductive invariant of the admission system: bounded occupancy plus
exact release bookkeeping per process. -/
def Inv (max : Nat) (ps : List WProc) : Prop :=
  occupancy ps ≤ max
  ∧ ∀ p ∈ ps,
      (p.phase = .finished → p.releases = (if p.acquired then 1 else 0))
      ∧ (p.phase = .holding → p.acquired = true ∧ p.releases = 0)
      ∧ (p.phase = .waiting → p.acquired = false ∧ p.releases = 0)

/-- The second model: one `Execute`/`ExecuteBalanced` call against a fixed
snapshot of its environment.  `callerDone`/`closed` say whether
`ctx.Done()` resp. `lb.ctx.Done()` are ready, `slotFree` whether a send on
`lb.workers` could proceed, `timerFired` whether the deadline timer has
fired, `hasDeadline` whether `ctx.Deadline()` reported a deadline. -/
structure LBEnv where
  callerDone : Bool
  closed : Bool
  slotFree : Bool
  timerFired : Bool
  hasDeadline : Bool
deriving DecidableEq

/-- Possible results of the call: the caller's context error, the
"load balancer is closed" error, `context.DeadlineExceeded`, the operation
actually running, or blocking forever (no select case ready and no
`default`). -/
inductive LBOutcome where
  | callerErr
  | closedErr
  | deadlineExceeded
  | opRun
  | blocked
deriving DecidableEq

/-- The ready cases of a `select`: Go picks among them nondeterministically
(the `default` arm runs only when none is ready). -/
def readyCases (cs : List (Bool × α)) : List α :=
  (cs.filter (fun c => c.1)).map (fun c => c.2)

/-- The final `select` of `Execute` after the slot is acquired: `ctx.Done()`
and `lb.ctx.Done()` arms, `default` invokes the operation. -/
def execAfterAcquire (env : LBEnv) : List LBOutcome :=
  let r := readyCases [(env.callerDone, LBOutcome.callerErr), (env.closed, LBOutcome.closedErr)]
  if r.isEmpty then [LBOutcome.opRun] else r

/-- The slot-wait `select` of `Execute` (no `default`): the deadline timer
arm is present only when the context carries a deadline; `none` marks the
`lb.workers <- struct{}{}` arm, which continues to the post-acquisition
check. -/
def execWaitSlot (env : LBEnv) : List LBOutcome :=
  let cases :=
    [(env.callerDone, some LBOutcome.callerErr), (env.closed, some LBOutcome.closedErr)]
      ++ (if env.hasDeadline then [(env.timerFired, some LBOutcome.deadlineExceeded)] else [])
      ++ [(env.slotFree, (none : Option LBOutcome))]
  let r := readyCases cases
  if r.isEmpty then [LBOutcome.blocked]
  else r.flatMap (fun o =>
    match o with
    | some x => [x]
    | none => execAfterAcquire env)

/-- `LoadBalancer.Execute`: first a `select` with `default` over
`ctx.Done()` and `lb.ctx.Done()` (returning the corresponding error when
ready), then the slot wait, then the post-acquisition check. -/
def Execute (env : LBEnv) : List LBOutcome :=
  let r := readyCases [(env.callerDone, LBOutcome.callerErr), (env.closed, LBOutcome.closedErr)]
  if r.isEmpty then execWaitSlot env else r

/-- The inner `select` of `ExecuteBalanced` after its slot acquisition:
`ctx.Done()` and `lb.ctx.Done()` arms, `default` invokes the operation. -/
def executeBalancedAfterAcquire (env : LBEnv) : List LBOutcome :=
  let r := readyCases [(env.callerDone, LBOutcome.callerErr), (env.closed, LBOutcome.closedErr)]
  if r.isEmpty then [LBOutcome.opRun] else r

/-- `ExecuteBalanced`: a single outer `select` (no `default`, no deadline
arm) racing the slot send against `ctx.Done()` and `lb.ctx.Done()`; on
acquisition the inner check runs. -/
def ExecuteBalanced (env : LBEnv) : List LBOutcome :=
  let cases :=
    [(env.slotFree, (none : Option LBOutcome)),
     (env.callerDone, some LBOutcome.callerErr),
     (env.closed, some LBOutcome.closedErr)]
  let r := readyCases cases
  if r.isEmpty then [LBOutcome.blocked]
  else r.flatMap (fun o =>
    match o with
    | some x => [x]
    | none => executeBalancedAfterAcquire env)

end lb

/-! ## Rate limiter: package `rl` (src/logger/logger_test.go, second file) -/

namespace rl

/-- A cancel function: `context.WithCancel` hands back one that cancels its
context; `NewRateLimiterWithContext` instead stores the stub `func() {}`. -/
inductive CancelFn where
  | real (id : Nat)
  | stub
deriving DecidableEq

/-- Cancellation state of every context, by id. -/
def World := Nat → Bool

/-- Running a cancel function against the world. -/
def applyCancel : CancelFn → World → World
  | .real id, w => fun n => if n = id then true else w n
  | .stub, w => w

/-- The `RateLimiter` struct: the token channel is modelled separately (its
buffer starts empty); `ctx` is the id of the context the replenish loop
watches, `cancel` the stored cancel function. -/
structure RateLimiter where
  ctx : Nat
  cancel : CancelFn
  interval : Int
  batchSize : Int
deriving DecidableEq

/-- `NewRateLimiter`: `context.WithCancel(context.Background())` yields a
fresh context `freshId` and a real cancel function for it. -/
def NewRateLimiter (freshId : Nat) (interval batchSize : Int) : RateLimiter :=
  ⟨freshId, .real freshId, interval, batchSize⟩

/-- `NewRateLimiterWithContext`: the caller's context is stored as-is and
`cancel` is the stub `func() {}` ("fake cancel because we're using someone
else's context"). -/
def NewRateLimiterWithContext (ctxId : Nat) (interval batchSize : Int) : RateLimiter :=
  ⟨ctxId, .stub, interval, batchSize⟩

/-- `Close()` runs `rl.cancel()`. -/
def Close (rl : RateLimiter) (w : World) : World := applyCancel rl.cancel w

/-- Whether the `replenishTokens` goroutine's `<-rl.ctx.Done()` arm is
ready, i.e. the loop can (and, once no more ticks race it, will) return. -/
def refillLoopStopped (rl : RateLimiter) (w : World) : Bool := w rl.ctx

/-- `tokens: make(chan struct{}, batchSize)` — the buffer starts empty; no
tokens are deposited at construction. -/
def initialTokenCount (_rl : RateLimiter) : Nat := 0

/-- Joint state of the token channel, the replenish goroutine and the
`Execute` callers, for one limiter with channel capacity `batchSize`. -/
structure RLSys where
  ctxDone : Bool
  refillReturned : Bool
  tokens : Nat
  served : Nat
deriving DecidableEq

/-- Transitions of the limiter system with `batchSize = batch`.
* `cancel`: the context the replenish loop watches becomes done.
* `refillStop`: the loop takes its `<-rl.ctx.Done()` arm and returns
  (possible only once the context is done).
* `deposit`: the loop's ticker arm fires (only while the loop is still
  running): it pushes `batch` tokens one by one, dropping each one the
  full buffer cannot take.
* `grant`: an `Execute`/`ExecuteRateLimited` caller receives from
  `rl.tokens` and invokes its operation. -/
inductive RLStep (batch : Nat) : RLSys → RLSys → Prop
  | cancel (s : RLSys) :
      RLStep batch s { s with ctxDone := true }
  | refillStop (s : RLSys) :
      s.ctxDone = true →
      RLStep batch s { s with refillReturned := true }
  | deposit (s : RLSys) :
      s.refillReturned = false →
      RLStep batch s { s with tokens := min (s.tokens + batch) batch }
  | grant (s : RLSys) :
      1 ≤ s.tokens →
      RLStep batch s { s with tokens := s.tokens - 1, served := s.served + 1 }

/-- Timeline events of a fresh limiter: a ticker fire (`time.NewTicker`
first fires one full `interval` after creation, then every `interval`), a
caller being granted a token, or a caller returning its context error. -/
inductive RLEvent where
  | tick
  | grant
  | cancelReturn
deriving DecidableEq

/-- Validity of a timed event trace, carrying the previous event time, the
buffered token count and the number of ticker fires so far.  Creation is at
time 0; the k-th tick happens at `k * interval`; a grant consumes one
buffered token (so it requires one); deposits refill the bounded buffer,
dropping overflow. -/
def validFrom (interval : Int) (batch : Nat) :
    Int → Nat → Nat → List (Int × RLEvent) → Bool
  | _, _, _, [] => true
  | lastT, toks, ticks, e :: rest =>
    decide (lastT ≤ e.1) &&
      (match e.2 with
       | .tick =>
         decide (e.1 = ((ticks : Int) + 1) * interval) &&
           validFrom interval batch e.1 (min (toks + batch) batch) (ticks + 1) rest
       | .grant =>
         decide (1 ≤ toks) && validFrom interval batch e.1 (toks - 1) ticks rest
       | .cancelReturn => validFrom interval batch e.1 toks ticks rest)

end rl

/-! ## Theorems -/

namespace cb

/-- `runFn` always reports the operation as invoked. -/
lemma runFn_invoked (cb : CircuitBreaker) (s : CBState) (now : Int) (fnErr : Option ε) :
    (runFn cb s now fnErr).invoked = true := by
  unfold runFn
  match fnErr with
  | none => rfl
  | some e =>
    simp only []
    split <;> rfl

/-- A failing invocation leaves state `⟨failures + 1, now⟩` whatever the
returned error is. -/
lemma runFn_fail_state (cb : CircuitBreaker) (s : CBState) (now : Int) (e : ε) :
    (runFn cb s now (some e)).state = ⟨s.failures + 1, now⟩ := by
  unfold runFn
  simp only []
  split <;> rfl

/-- Below the threshold, `Execute` skips the open-circuit check. -/
lemma Execute_closed (cb : CircuitBreaker) (s : CBState) (now : Int) (fnErr : Option ε)
    (h : ¬ cb.threshold ≤ s.failures) :
    Execute cb s now fnErr = runFn cb s now fnErr := by
  unfold Execute
  simp [h]

/-- At or above the threshold and inside the cool-down (or with zero
timeout), `Execute` returns the open-circuit error without invoking the
operation and leaves the state unchanged. -/
lemma Execute_open (cb : CircuitBreaker) (s : CBState) (now : Int) (fnErr : Option ε)
    (h : cb.threshold ≤ s.failures)
    (hc : cb.timeout = 0 ∨ now - s.lastFailure ≤ cb.timeout) :
    Execute cb s now fnErr = ⟨s, .circuitOpen, false⟩ := by
  unfold Execute
  rcases hc with h0 | hin
  · simp [h, h0]
  · by_cases h0 : cb.timeout = 0
    · simp [h, h0]
    · have : now - lastFailDecoded s ≤ cb.timeout := by
        simpa [lastFailDecoded, timeUnix] using hin
      simp [h, h0, this]

/-- While strictly below the threshold, consecutive failing calls increment
the failure counter once each. -/
lemma runFails_buildup (cb : CircuitBreaker) (n : Nat) (hthr : cb.threshold = (n : Int)) :
    ∀ (l : List (Int × ε)) (s : CBState),
      0 ≤ s.failures → s.failures + l.length ≤ (n : Int) - 1 →
      (runFails cb s l).failures = s.failures + l.length := by
  intro l
  induction l with
  | nil => intro s _ _; simp [runFails]
  | cons hd tl ih =>
    intro s hpos hlen
    have hlt : ¬ cb.threshold ≤ s.failures := by
      rw [hthr]
      have : (0 : Int) ≤ tl.length := by positivity
      simp only [List.length_cons] at hlen
      push_cast at hlen ⊢
      omega
    obtain ⟨τ, e⟩ := hd
    have hstate : (Execute cb s τ (some e)).state = ⟨s.failures + 1, τ⟩ := by
      rw [Execute_closed cb s τ (some e) hlt, runFn_fail_state]
    simp only [runFails, hstate]
    have := ih ⟨s.failures + 1, τ⟩ (by simp; omega)
      (by simp only [List.length_cons] at hlen; push_cast at hlen ⊢; omega)
    simp only [List.length_cons]
    push_cast
    push_cast at this
    omega

/-- Once open and inside the cool-down, every further failing call leaves
the state untouched. -/
lemma runFails_open (cb : CircuitBreaker) (s : CBState)
    (h : cb.threshold ≤ s.failures) :
    ∀ us : List (Int × ε),
      (∀ u ∈ us, cb.timeout = 0 ∨ u.1 - s.lastFailure ≤ cb.timeout) →
      runFails cb s us = s ∧
        ∀ o ∈ traceFails cb s us, o = (CBResult.circuitOpen, false) := by
  intro us
  induction us with
  | nil => intro _; exact ⟨rfl, by simp [traceFails]⟩
  | cons hd tl ih =>
    intro hall
    obtain ⟨τ, e⟩ := hd
    have hx : Execute cb s τ (some e) = ⟨s, .circuitOpen, false⟩ :=
      Execute_open cb s τ (some e) h (hall (τ, e) (by simp))
    have htl := ih (fun u hu => hall u (by simp [hu]))
    refine ⟨?_, ?_⟩
    · simp only [runFails, hx]
      exact htl.1
    · intro o ho
      simp only [traceFails, hx, List.mem_cons] at ho
      rcases ho with ho | ho
      · exact ho
      · exact htl.2 o ho

/-- C1: for every threshold `n ≥ 1`, after any `n - 1` consecutive failing
`Execute` calls from a fresh breaker the failure count is `n - 1`; the next
failing call — the one on which the count reaches `n` — returns
`CircuitOpenError` (not the operation's own error) while still invoking the
operation; and every subsequent call made before the cool-down has elapsed
(`timeout = 0`, or within `timeout` of the trip) returns `CircuitOpenError`
without invoking the operation and leaves the state unchanged. -/
theorem cb_consecutive_failures_trip_and_hold {ε : Type} (cb : CircuitBreaker) (n : Nat)
    (hn : 1 ≤ n) (hthr : cb.threshold = (n : Int))
    (buildup : List (Int × ε)) (hlen : buildup.length = n - 1)
    (now : Int) (e : ε) :
    (runFails cb initState buildup).failures = (n : Int) - 1
    ∧ Execute cb (runFails cb initState buildup) now (some e)
        = ⟨⟨(n : Int), now⟩, .circuitOpen, true⟩
    ∧ ∀ us : List (Int × ε),
        (∀ u ∈ us, cb.timeout = 0 ∨ u.1 - now ≤ cb.timeout) →
        runFails cb ⟨(n : Int), now⟩ us = ⟨(n : Int), now⟩
        ∧ ∀ o ∈ traceFails cb ⟨(n : Int), now⟩ us, o = (CBResult.circuitOpen, false) := by
  have h1 : (runFails cb initState buildup).failures = (n : Int) - 1 := by
    have := runFails_buildup cb n hthr buildup initState (by simp [initState])
      (by simp [initState, hlen]; omega)
    rw [this]
    simp [initState, hlen]
    omega
  refine ⟨h1, ?_, ?_⟩
  · have hlt : ¬ cb.threshold ≤ (runFails cb initState buildup).failures := by
      rw [hthr, h1]; omega
    rw [Execute_closed cb _ now (some e) hlt]
    have hf : (runFails cb initState buildup).failures + 1 = (n : Int) := by
      rw [h1]; ring
    simp [runFn, recordFailure, hf, hthr]
  · intro us hus
    exact runFails_open cb ⟨(n : Int), now⟩ (by rw [hthr]) us hus

/-- Witness for C1 at threshold 2, timeout 100ns: one failing call at t=0,
the tripping call at t=10, and subsequent calls all inside the cool-down. -/
theorem cb_consecutive_failures_trip_and_hold_witness :
    (runFails (⟨2, 100⟩ : CircuitBreaker) initState [((0 : Int), ())]).failures
        = ((2 : Nat) : Int) - 1
    ∧ Execute (⟨2, 100⟩ : CircuitBreaker) (runFails ⟨2, 100⟩ initState [((0 : Int), ())])
        10 (some ()) = ⟨⟨((2 : Nat) : Int), 10⟩, .circuitOpen, true⟩
    ∧ ∀ us : List (Int × Unit),
        (∀ u ∈ us, (⟨2, 100⟩ : CircuitBreaker).timeout = 0 ∨ u.1 - 10 ≤ (⟨2, 100⟩ : CircuitBreaker).timeout) →
        runFails (⟨2, 100⟩ : CircuitBreaker) ⟨((2 : Nat) : Int), 10⟩ us = ⟨((2 : Nat) : Int), 10⟩
        ∧ ∀ o ∈ traceFails (⟨2, 100⟩ : CircuitBreaker) ⟨((2 : Nat) : Int), 10⟩ us,
            o = (CBResult.circuitOpen, false) :=
  cb_consecutive_failures_trip_and_hold (ε := Unit) ⟨2, 100⟩ 2 (by norm_num) (by norm_num)
    [(0, ())] (by simp) 10 ()

/-- C6: with `timeout = 0` and the failure count at or above the threshold,
`Execute` returns `CircuitOpenError` at every instant, never invoking the
operation and never changing state — no elapsed time reopens the breaker;
`Reset()` stores zero into both `failures` and `lastFailure`, after which
`Execute` invokes the operation again. -/
theorem cb_zero_timeout_reset_only {ε : Type} (cb : CircuitBreaker) (s : CBState)
    (h0 : cb.timeout = 0) (hopen : cb.threshold ≤ s.failures) :
    (∀ (now : Int) (fnErr : Option ε), Execute cb s now fnErr = ⟨s, .circuitOpen, false⟩)
    ∧ reset = (⟨0, 0⟩ : CBState)
    ∧ (1 ≤ cb.threshold → ∀ (now : Int) (fnErr : Option ε),
        (Execute cb reset now fnErr).invoked = true) := by
  refine ⟨?_, rfl, ?_⟩
  · intro now fnErr
    exact Execute_open cb s now fnErr hopen (Or.inl h0)
  · intro hthr now fnErr
    have hlt : ¬ cb.threshold ≤ (reset : CBState).failures := by
      simp only [reset]
      omega
    rw [Execute_closed cb reset now fnErr hlt]
    exact runFn_invoked cb reset now fnErr

/-- Witness for C6: threshold 1, timeout 0, a state with 5 failures. -/
theorem cb_zero_timeout_reset_only_witness :
    (∀ (now : Int) (fnErr : Option Unit),
        Execute (⟨1, 0⟩ : CircuitBreaker) ⟨5, 3⟩ now fnErr = ⟨⟨5, 3⟩, .circuitOpen, false⟩)
    ∧ reset = (⟨0, 0⟩ : CBState)
    ∧ (1 ≤ (⟨1, 0⟩ : CircuitBreaker).threshold → ∀ (now : Int) (fnErr : Option Unit),
        (Execute (⟨1, 0⟩ : CircuitBreaker) reset now fnErr).invoked = true) :=
  cb_zero_timeout_reset_only (ε := Unit) ⟨1, 0⟩ ⟨5, 3⟩ (by norm_num) (by norm_num)

/-- C9: a failure recorded at any positive instant `now` (in nanoseconds,
as `time.Now().UnixNano()` always is) is reported wrongly by the
`LastFailure` accessor — `time.Unix(n, 0)` reads the stored nanosecond
count as seconds, so the reported instant differs from `now` — while the
decoding `Execute` uses for its cool-down check, `time.Unix(0, n)`,
recovers `now` exactly. -/
theorem cb_last_failure_unit_mismatch (s : CBState) (now : Int) (h : 0 < now) :
    LastFailure (recordFailure s now) ≠ now
    ∧ lastFailDecoded (recordFailure s now) = now := by
  constructor
  · simp only [LastFailure, timeUnix, recordFailure]
    intro heq
    omega
  · simp [lastFailDecoded, timeUnix, recordFailure]

/-- Witness for C9 at `now = 1` ns. -/
theorem cb_last_failure_unit_mismatch_witness :
    LastFailure (recordFailure ⟨0, 0⟩ 1) ≠ 1
    ∧ lastFailDecoded (recordFailure ⟨0, 0⟩ 1) = 1 :=
  cb_last_failure_unit_mismatch ⟨0, 0⟩ 1 (by norm_num)

end cb

namespace lb

lemma occupancy_append (l r : List WProc) :
    occupancy (l ++ r) = occupancy l + occupancy r := by
  simp [occupancy, List.countP_append]

lemma occupancy_cons (p : WProc) (r : List WProc) :
    occupancy (p :: r) = occupancy r + (if p.phase = WPhase.holding then 1 else 0) := by
  simp [occupancy, List.countP_cons]

lemma inv_step (max : Nat) (ps ps' : List WProc) (h : Inv max ps)
    (hstep : Step max ps ps') : Inv max ps' := by
  obtain ⟨hocc, hmem⟩ := h
  cases hstep with
  | spawn ps0 =>
    constructor
    · rw [occupancy_append]
      simpa [occupancy, List.countP_cons] using hocc
    · intro q hq
      rcases List.mem_append.1 hq with hql | hqc
      · exact hmem q hql
      · have hq' : q = ⟨.waiting, false, 0⟩ := by simpa using hqc
        subst hq'
        refine ⟨(by intro h; simp at h), (by intro h; simp at h), fun _ => ⟨rfl, rfl⟩⟩
  | acquire l r p hp hoccl =>
    have hpre : occupancy (l ++ p :: r) = occupancy l + occupancy r := by
      rw [occupancy_append, occupancy_cons, hp]
      simp
    have hpost :
        occupancy (l ++ { p with phase := .holding, acquired := true } :: r)
          = occupancy l + occupancy r + 1 := by
      rw [occupancy_append, occupancy_cons]
      simp
      omega
    have hp0 := hmem p (by simp)
    constructor
    · rw [hpost]
      rw [hpre] at hoccl
      omega
    · intro q hq
      rcases List.mem_append.1 hq with hql | hqc
      · exact hmem q (List.mem_append.2 (Or.inl hql))
      · rcases List.mem_cons.1 hqc with rfl | hqr
        · refine ⟨(by intro h; simp at h), fun _ => ⟨rfl, ?_⟩, (by intro h; simp at h)⟩
          exact ((hp0.2.2) hp).2
        · exact hmem q (by simp [hqr])
  | abort l r p hp =>
    have hp0 := hmem p (by simp)
    have hacq : p.acquired = false := ((hp0.2.2) hp).1
    have hrel : p.releases = 0 := ((hp0.2.2) hp).2
    constructor
    · have hpre : occupancy (l ++ p :: r) = occupancy l + occupancy r := by
        rw [occupancy_append, occupancy_cons, hp]
        simp
      have hpost :
          occupancy (l ++ { p with phase := .finished } :: r)
            = occupancy l + occupancy r := by
        rw [occupancy_append, occupancy_cons]
        simp
      rw [hpost]
      rw [hpre] at hocc
      exact hocc
    · intro q hq
      rcases List.mem_append.1 hq with hql | hqc
      · exact hmem q (List.mem_append.2 (Or.inl hql))
      · rcases List.mem_cons.1 hqc with rfl | hqr
        · refine ⟨fun _ => ?_, (by intro h; simp at h), (by intro h; simp at h)⟩
          simp [hacq, hrel]
        · exact hmem q (by simp [hqr])
  | finish l r p hp =>
    have hp0 := hmem p (by simp)
    have hacq : p.acquired = true := ((hp0.2.1) hp).1
    have hrel : p.releases = 0 := ((hp0.2.1) hp).2
    constructor
    · have hpre : occupancy (l ++ p :: r) = occupancy l + occupancy r + 1 := by
        rw [occupancy_append, occupancy_cons, hp]
        simp
        omega
      have hpost :
          occupancy (l ++ { p with phase := .finished, releases := p.releases + 1 } :: r)
            = occupancy l + occupancy r := by
        rw [occupancy_append, occupancy_cons]
        simp
      rw [hpost]
      rw [hpre] at hocc
      omega
    · intro q hq
      rcases List.mem_append.1 hq with hql | hqc
      · exact hmem q (List.mem_append.2 (Or.inl hql))
      · rcases List.mem_cons.1 hqc with rfl | hqr
        · refine ⟨fun _ => ?_, (by intro h; simp at h), (by intro h; simp at h)⟩
          simp [hacq, hrel]
        · exact hmem q (by simp [hqr])

/-- C2: in every state reachable from a fresh balancer with capacity `max`,
at most `max` calls hold a slot at once (so at most `max` operations run
concurrently), and release bookkeeping is exact: a returned call that
acquired a slot has run its deferred release exactly once — whether the
operation returned normally, with an error, or panicked, the single exit
transition carries the one deferred `<-lb.workers` — a returned call that
never acquired released nothing, and a call still waiting or holding has
not released yet. -/
theorem lb_concurrency_bound_and_single_release (max : Nat) (ps : List WProc)
    (h : Reachable max ps) :
    occupancy ps ≤ max
    ∧ ∀ p ∈ ps,
        (p.phase = .finished → p.releases = (if p.acquired then 1 else 0))
        ∧ (p.phase = .holding → p.acquired = true ∧ p.releases = 0)
        ∧ (p.phase = .waiting → p.acquired = false ∧ p.releases = 0) := by
  have : Inv max ps := by
    induction h with
    | refl =>
      constructor
      · simp [occupancy]
      · intro p hp; cases hp
    | tail _ hstep ih => exact inv_step _ _ _ ih hstep
  exact this

/-- Witness for C2: with capacity 1, the state reached by one caller
spawning and acquiring the slot. -/
theorem lb_concurrency_bound_and_single_release_witness :
    occupancy [(⟨.holding, true, 0⟩ : WProc)] ≤ 1
    ∧ ∀ p ∈ [(⟨.holding, true, 0⟩ : WProc)],
        (p.phase = .finished → p.releases = (if p.acquired then 1 else 0))
        ∧ (p.phase = .holding → p.acquired = true ∧ p.releases = 0)
        ∧ (p.phase = .waiting → p.acquired = false ∧ p.releases = 0) :=
  lb_concurrency_bound_and_single_release 1 [⟨.holding, true, 0⟩]
    (Relation.ReflTransGen.tail
      (Relation.ReflTransGen.tail (Relation.ReflTransGen.refl)
        (Step.spawn []))
      (Step.acquire [] [] ⟨.waiting, false, 0⟩ rfl (by decide)))

/-- C5: once the balancer has been closed (`lb.ctx.Done()` ready) and the
caller's own context is still live, every possible resolution of the
selects in both `Execute` and `ExecuteBalanced` returns the
"load balancer is closed" error, and in particular the operation is never
invoked: `Execute` refuses at its pre-wait check, and `ExecuteBalanced`
refuses either at the wait itself or at the re-check after acquiring a
slot. -/
theorem lb_closed_rejects (env : LBEnv) (hc : env.closed = true)
    (hd : env.callerDone = false) :
    (∀ o ∈ Execute env, o = LBOutcome.closedErr)
    ∧ (∀ o ∈ ExecuteBalanced env, o = LBOutcome.closedErr) := by
  obtain ⟨cd, cl, sf, tf, hdl⟩ := env
  simp only at hc hd
  subst hc hd
  cases sf <;> cases tf <;> cases hdl <;> decide

/-- Witness for C5: a closed balancer with a free slot, a fired timer and a
deadline — every outcome is still the closed error. -/
theorem lb_closed_rejects_witness :
    (∀ o ∈ Execute ⟨false, true, true, true, true⟩, o = LBOutcome.closedErr)
    ∧ (∀ o ∈ ExecuteBalanced ⟨false, true, true, true, true⟩, o = LBOutcome.closedErr) :=
  lb_closed_rejects ⟨false, true, true, true, true⟩ rfl rfl

end lb

namespace rl

/-- C3 counterexample: for a limiter built by `NewRateLimiterWithContext`
(context id 0, interval 100ns, batchSize 5) in a world where no context has
been cancelled, `Close()` runs the stored stub cancel function, so
afterwards the `<-rl.ctx.Done()` arm the replenish loop watches is still
not ready: the background refill process is **not** stopped, refuting the
claim that `Close` stops it for every constructor. -/
theorem rl_close_with_context_noop_cex :
    refillLoopStopped (NewRateLimiterWithContext 0 100 5)
      (Close (NewRateLimiterWithContext 0 100 5) (fun _ => false)) = false := rfl

/-- C3 amended: `Close()` stops the refill loop only for limiters built by
`NewRateLimiter` (whose cancel function cancels the limiter's own
context); for `NewRateLimiterWithContext` the stored cancel is the stub
`func() {}`, so `Close()` changes nothing and the loop stops only when the
supplied context is cancelled.  Moreover, once the replenish goroutine has
returned, the token supply never grows again — along any further steps the
buffered tokens plus the total admissions is constant, so outstanding
waiters are admitted at most `tokens` more times (at most `batchSize`, the
channel capacity) or observe their own cancellation, and are never
admitted after the leftover tokens are gone. -/
theorem rl_close_semantics_amended :
    (∀ (freshId : Nat) (interval batchSize : Int) (w : World),
        refillLoopStopped (NewRateLimiter freshId interval batchSize)
          (Close (NewRateLimiter freshId interval batchSize) w) = true)
    ∧ (∀ (ctxId : Nat) (interval batchSize : Int) (w : World),
        Close (NewRateLimiterWithContext ctxId interval batchSize) w = w)
    ∧ (∀ (batch : Nat) (s s' : RLSys),
        Relation.ReflTransGen (RLStep batch) s s' → s.refillReturned = true →
        s'.refillReturned = true ∧ s'.tokens + s'.served = s.tokens + s.served) := by
  refine ⟨?_, ?_, ?_⟩
  · intro freshId interval batchSize w
    simp [refillLoopStopped, Close, applyCancel, NewRateLimiter]
  · intro ctxId interval batchSize w
    rfl
  · intro batch s s' h hret
    induction h with
    | refl => exact ⟨hret, rfl⟩
    | @tail b c hchain hstep ih =>
      obtain ⟨ihret, ihsum⟩ := ih
      cases hstep with
      | cancel => exact ⟨ihret, ihsum⟩
      | refillStop hb => exact ⟨rfl, ihsum⟩
      | deposit hb => simp [hb] at ihret
      | grant hb =>
        refine ⟨ihret, ?_⟩
        show b.tokens - 1 + (b.served + 1) = s.tokens + s.served
        omega

/-- Witness for C3 (amended): closing a `NewRateLimiter` does stop the
loop, closing a `NewRateLimiterWithContext` is the identity on the world,
and one admission step from a stopped state with 2 buffered tokens keeps
tokens + admissions constant. -/
theorem rl_close_semantics_amended_witness :
    refillLoopStopped (NewRateLimiter 0 100 5)
        (Close (NewRateLimiter 0 100 5) (fun _ => false)) = true
    ∧ Close (NewRateLimiterWithContext 0 100 5) (fun _ => false) = (fun _ => false)
    ∧ ((⟨true, true, 1, 1⟩ : RLSys).refillReturned = true
        ∧ (⟨true, true, 1, 1⟩ : RLSys).tokens + (⟨true, true, 1, 1⟩ : RLSys).served
            = (⟨true, true, 2, 0⟩ : RLSys).tokens + (⟨true, true, 2, 0⟩ : RLSys).served) :=
  ⟨rl_close_semantics_amended.1 0 100 5 (fun _ => false),
   rl_close_semantics_amended.2.1 0 100 5 (fun _ => false),
   rl_close_semantics_amended.2.2 5 ⟨true, true, 2, 0⟩ ⟨true, true, 1, 1⟩
     (Relation.ReflTransGen.single (RLStep.grant _ (by norm_num))) rfl⟩

/-- In a valid trace, every event happens no earlier than the time the
trace starts from. -/
lemma validFrom_times (interval : Int) (batch : Nat) :
    ∀ (trace : List (Int × RLEvent)) (lastT : Int) (toks ticks : Nat),
      validFrom interval batch lastT toks ticks trace = true →
      ∀ te ∈ trace, lastT ≤ te.1 := by
  intro trace
  induction trace with
  | nil => intro _ _ _ _ te hte; cases hte
  | cons e rest ih =>
    intro lastT toks ticks h te hte
    obtain ⟨τ, ev⟩ := e
    rcases List.mem_cons.1 hte with rfl | hte'
    · cases ev <;> simp [validFrom] at h <;> exact h.1
    · cases ev <;> simp [validFrom] at h
      · exact le_trans h.1 (ih τ _ _ h.2.2 te hte')
      · exact le_trans h.1 (ih τ _ _ h.2.2 te hte')
      · exact le_trans h.1 (ih τ _ _ h.2 te hte')

/-- From an empty bucket with no tick yet, every admission in a valid
trace happens at or after the first tick time `interval`. -/
lemma validFrom_grants_after_interval (interval : Int) (batch : Nat) :
    ∀ (trace : List (Int × RLEvent)) (lastT : Int),
      validFrom interval batch lastT 0 0 trace = true →
      ∀ te ∈ trace, te.2 = RLEvent.grant → interval ≤ te.1 := by
  intro trace
  induction trace with
  | nil => intro _ _ te hte; cases hte
  | cons e rest ih =>
    intro lastT h te hte hgrant
    obtain ⟨τ, ev⟩ := e
    rcases List.mem_cons.1 hte with rfl | hte'
    · cases ev
      · cases hgrant
      · simp [validFrom] at h
      · cases hgrant
    · cases ev <;> simp [validFrom] at h
      · have htick : τ = interval := h.2.1
        have := validFrom_times interval batch rest τ _ _ h.2.2 te hte'
        omega
      · exact ih τ h.2 te hte' hgrant

/-- C10: a freshly constructed `RateLimiter` starts with an empty token
buffer (`make(chan struct{}, batchSize)` deposits nothing), and in every
valid timeline of a fresh limiter — creation at time 0, ticker fires at
`k * interval`, a grant consumes a buffered token — every `Execute` /
`ExecuteRateLimited` admission happens at or after `interval`, the first
ticker fire, one full interval after creation. -/
theorem rl_fresh_bucket_empty :
    (∀ (freshId : Nat) (interval batchSize : Int),
        initialTokenCount (NewRateLimiter freshId interval batchSize) = 0)
    ∧ (∀ (interval : Int) (batch : Nat) (trace : List (Int × RLEvent)),
        validFrom interval batch 0 0 0 trace = true →
        ∀ te ∈ trace, te.2 = RLEvent.grant → interval ≤ te.1) := by
  refine ⟨fun _ _ _ => rfl, ?_⟩
  intro interval batch trace h
  exact validFrom_grants_after_interval interval batch trace 0 h

/-- Witness for C10: at interval 100ns, batch 2, the trace "tick at 100,
grant at 100" is valid and its grant is not before 100. -/
theorem rl_fresh_bucket_empty_witness :
    initialTokenCount (NewRateLimiter 0 100 2) = 0
    ∧ (∀ te ∈ [((100 : Int), RLEvent.tick), ((100 : Int), RLEvent.grant)],
        te.2 = RLEvent.grant → (100 : Int) ≤ te.1) :=
  ⟨rl_fresh_bucket_empty.1 0 100 2,
   rl_fresh_bucket_empty.2 100 2 [(100, RLEvent.tick), (100, RLEvent.grant)] (by decide)⟩

end rl

namespace retry

/-- The loop never forgets invocations: the final count is at least the
count on entry. -/
lemma withBackoffLoop_invocations_le {ε T : Type} (cfg : Config) (op : Nat → Except ε T)
    (c : Option ℚ) (rnd : Nat → ℚ) :
    ∀ (fuel attemptIdx : Nat) (delay elapsed : ℚ) (lerr : Option ε) (inv : Nat) (acc : List ℚ),
      inv ≤ (withBackoffLoop cfg op c rnd fuel attemptIdx delay elapsed lerr inv acc).invocations := by
  intro fuel
  induction fuel with
  | zero => intro _ _ _ _ _ _; simp [withBackoffLoop]
  | succ f ih =>
    intro attemptIdx delay elapsed lerr inv acc
    simp only [withBackoffLoop]
    split
    · simp
    · split
      · cases hop : op (inv + 1) with
        | ok t => simp [hop]
        | error e =>
          simp only [hop]
          exact le_trans (Nat.le_succ inv) (ih _ _ _ _ _ _)
      · cases hop : op (inv + 1) with
        | ok t => simp [hop]
        | error e =>
          simp only [hop]
          exact le_trans (Nat.le_succ inv) (ih _ _ _ _ _ _)

/-- When every invocation fails and no cancellation is pending, the sleeps
the loop performs from a retry index `idx ≥ 1` onwards are exactly the
jittered iterates of the current `delay` variable. -/
lemma withBackoffLoop_fail_sleeps {ε : Type} (cfg : Config) (e : ε) (rnd : Nat → ℚ) :
    ∀ (fuel idx : Nat) (delay elapsed : ℚ) (lerr : Option ε) (inv : Nat) (acc : List ℚ),
      1 ≤ idx →
      (withBackoffLoop (T := Unit) cfg (fun _ => Except.error e) none rnd fuel idx delay
          elapsed lerr inv acc).sleeps
        = acc.reverse ++ (List.range fuel).map
            (fun j => actualDelay cfg (rnd (idx + j)) ((nextDelay cfg)^[j] delay)) := by
  intro fuel
  induction fuel with
  | zero => intro _ _ _ _ _ _ _; simp [withBackoffLoop]
  | succ f ih =>
    intro idx delay elapsed lerr inv acc hidx
    have hidx0 : ¬ idx = 0 := by omega
    simp only [withBackoffLoop, ctxDone, if_neg hidx0]
    rw [if_neg (by decide)]
    rw [ih (idx + 1) (nextDelay cfg delay) _ _ _ _ (by omega)]
    rw [List.reverse_cons, List.append_assoc]
    congr 1
    rw [List.range_succ_eq_map, List.map_cons, List.map_map]
    simp only [Nat.add_zero, Function.iterate_zero_apply, List.singleton_append]
    congr 1
    refine List.map_congr_left fun j _ => ?_
    have harg : idx + 1 + j = idx + (j + 1) := by omega
    simp only [Function.comp_apply, harg, Function.iterate_succ_apply]

/-- C4 counterexample: `Attempts = 2`, `InitialDelay = 100`ns, no jitter,
an always-failing operation, cancellation firing at absolute time 50 —
during the single inter-attempt delay, which runs over (0, 100].  The
claim says the call must abort with the cancellation error without
starting the second attempt; instead the sleep completes, the second
attempt is invoked, and `WithBackoff` returns the last operation error,
not the cancellation error. -/
theorem retry_cancel_during_delay_cex :
    (WithBackoff (ε := Unit) (T := Unit) ⟨2, 100, 1000, 2, 0⟩ (fun _ => Except.error ())
        (some 50) (fun _ => 0)) = ⟨.exhausted (some ()), 2, [100]⟩
    ∧ (WithBackoff (ε := Unit) (T := Unit) ⟨2, 100, 1000, 2, 0⟩ (fun _ => Except.error ())
        (some 50) (fun _ => 0)).outcome ≠ RetryOutcome.canceled := by
  have h : (WithBackoff (ε := Unit) (T := Unit) ⟨2, 100, 1000, 2, 0⟩ (fun _ => Except.error ())
      (some 50) (fun _ => 0)) = ⟨.exhausted (some ()), 2, [100]⟩ := by
    norm_num [WithBackoff, withBackoffLoop, ctxDone, actualDelay, nextDelay]
  refine ⟨h, ?_⟩
  rw [h]
  simp

/-- C4 amended: `WithBackoff` observes cancellation only at the
`select`-with-`default` check at the top of each loop iteration, which runs
before the inter-attempt delay.  If the cancellation has fired by that
check, the call returns the cancellation error at once, performing neither
the delay nor the attempt (in particular a cancellation fired before entry
yields `ctx.Err()` with zero invocations).  If it has not fired by the
check, the next attempt is always invoked — `time.Sleep` does not watch
the context, so a cancellation firing during the delay does not prevent
the attempt and is only seen at the following iteration's check. -/
theorem retry_cancellation_check_amended {ε T : Type} :
    (∀ (cfg : Config) (op : Nat → Except ε T) (c : Option ℚ) (rnd : Nat → ℚ)
        (fuel attemptIdx : Nat) (delay elapsed : ℚ) (lerr : Option ε) (inv : Nat)
        (acc : List ℚ),
        1 ≤ fuel → ctxDone c elapsed = true →
        withBackoffLoop cfg op c rnd fuel attemptIdx delay elapsed lerr inv acc
          = ⟨.canceled, inv, acc.reverse⟩)
    ∧ (∀ (cfg : Config) (op : Nat → Except ε T) (c : Option ℚ) (rnd : Nat → ℚ)
        (fuel attemptIdx : Nat) (delay elapsed : ℚ) (lerr : Option ε) (inv : Nat)
        (acc : List ℚ),
        1 ≤ fuel → ctxDone c elapsed = false →
        inv + 1 ≤ (withBackoffLoop cfg op c rnd fuel attemptIdx delay elapsed
            lerr inv acc).invocations)
    ∧ (∀ (cfg : Config) (op : Nat → Except ε T) (c : Option ℚ) (rnd : Nat → ℚ),
        1 ≤ cfg.Attempts → ctxDone c 0 = true →
        WithBackoff cfg op c rnd = ⟨.canceled, 0, []⟩) := by
  have hstop : ∀ (cfg : Config) (op : Nat → Except ε T) (c : Option ℚ) (rnd : Nat → ℚ)
      (fuel attemptIdx : Nat) (delay elapsed : ℚ) (lerr : Option ε) (inv : Nat)
      (acc : List ℚ),
      1 ≤ fuel → ctxDone c elapsed = true →
      withBackoffLoop cfg op c rnd fuel attemptIdx delay elapsed lerr inv acc
        = ⟨.canceled, inv, acc.reverse⟩ := by
    intro cfg op c rnd fuel attemptIdx delay elapsed lerr inv acc hfuel hdone
    obtain ⟨f, rfl⟩ : ∃ f, fuel = f + 1 := ⟨fuel - 1, by omega⟩
    simp [withBackoffLoop, hdone]
  refine ⟨hstop, ?_, ?_⟩
  · intro cfg op c rnd fuel attemptIdx delay elapsed lerr inv acc hfuel hdone
    obtain ⟨f, rfl⟩ : ∃ f, fuel = f + 1 := ⟨fuel - 1, by omega⟩
    simp only [withBackoffLoop, hdone]
    rw [if_neg (by decide)]
    split
    · cases hop : op (inv + 1) with
      | ok t => simp [hop]
      | error e =>
        simp only [hop]
        exact withBackoffLoop_invocations_le cfg op c rnd _ _ _ _ _ _ _
    · cases hop : op (inv + 1) with
      | ok t => simp [hop]
      | error e =>
        simp only [hop]
        exact withBackoffLoop_invocations_le cfg op c rnd _ _ _ _ _ _ _
  · intro cfg op c rnd hA hdone
    have hfuel : 1 ≤ cfg.Attempts.toNat := by omega
    exact hstop cfg op c rnd _ 0 cfg.InitialDelay 0 none 0 [] hfuel hdone

/-- Witness for C4 (amended), at `Attempts = 2`: a cancellation already
fired at the check aborts with zero further invocations; a live context at
the check guarantees the next invocation; a pre-entry cancellation yields
the canceled outcome with no invocation at all. -/
theorem retry_cancellation_check_amended_witness :
    withBackoffLoop (ε := Unit) (T := Unit) ⟨2, 100, 1000, 2, 0⟩ (fun _ => Except.error ())
        (some 0) (fun _ => 0) 1 1 100 0 none 1 [] = ⟨.canceled, 1, []⟩
    ∧ 1 ≤ (withBackoffLoop (ε := Unit) (T := Unit) ⟨2, 100, 1000, 2, 0⟩
        (fun _ => Except.error ()) none (fun _ => 0) 1 0 100 0 none 0 []).invocations
    ∧ WithBackoff (ε := Unit) (T := Unit) ⟨2, 100, 1000, 2, 0⟩ (fun _ => Except.error ())
        (some (-1)) (fun _ => 0) = ⟨.canceled, 0, []⟩ :=
  ⟨retry_cancellation_check_amended.1 ⟨2, 100, 1000, 2, 0⟩ (fun _ => Except.error ())
      (some 0) (fun _ => 0) 1 1 100 0 none 1 [] (by norm_num) (by norm_num [ctxDone]),
   retry_cancellation_check_amended.2.1 ⟨2, 100, 1000, 2, 0⟩ (fun _ => Except.error ())
      none (fun _ => 0) 1 0 100 0 none 0 [] (by norm_num) rfl,
   retry_cancellation_check_amended.2.2 ⟨2, 100, 1000, 2, 0⟩ (fun _ => Except.error ())
      (some (-1)) (fun _ => 0) (by norm_num) (by norm_num [ctxDone])⟩

/-- C8 counterexample: with `Attempts = 0` the loop body never runs —
`WithBackoff` performs zero invocations, not one, and returns the zero
value together with a nil error (`lastError` was never assigned). -/
theorem retry_attempts_le_one_cex :
    (WithBackoff (ε := Unit) (T := Unit) ⟨0, 100, 1000, 2, 0⟩ (fun _ => Except.error ())
        none (fun _ => 0)) = ⟨.exhausted none, 0, []⟩
    ∧ (WithBackoff (ε := Unit) (T := Unit) ⟨0, 100, 1000, 2, 0⟩ (fun _ => Except.error ())
        none (fun _ => 0)).invocations ≠ 1 := by
  have h : (WithBackoff (ε := Unit) (T := Unit) ⟨0, 100, 1000, 2, 0⟩ (fun _ => Except.error ())
      none (fun _ => 0)) = ⟨.exhausted none, 0, []⟩ := rfl
  refine ⟨h, ?_⟩
  rw [h]
  simp

/-- C8 amended: with `Attempts = 1` and a cancellation that has not fired
at entry, `WithBackoff` invokes the operation exactly once, sleeps not at
all, and returns that invocation's result — the value on success, the zero
value and that error on failure.  With `Attempts ≤ 0` it invokes the
operation zero times and returns the zero value and a nil error. -/
theorem retry_attempts_le_one_amended {ε T : Type} :
    (∀ (cfg : Config) (op : Nat → Except ε T) (c : Option ℚ) (rnd : Nat → ℚ),
        cfg.Attempts = 1 → ctxDone c 0 = false →
        WithBackoff cfg op c rnd
          = ⟨match op 1 with
             | .ok t => .success t
             | .error e => .exhausted (some e), 1, []⟩)
    ∧ (∀ (cfg : Config) (op : Nat → Except ε T) (c : Option ℚ) (rnd : Nat → ℚ),
        cfg.Attempts ≤ 0 →
        WithBackoff cfg op c rnd = ⟨.exhausted none, 0, []⟩) := by
  constructor
  · intro cfg op c rnd hA hdone
    have hfuel : cfg.Attempts.toNat = 1 := by omega
    unfold WithBackoff
    rw [hfuel]
    simp only [withBackoffLoop, hdone, if_false, if_pos rfl]
    cases hop : op 1 with
    | ok t => simp [hop]
    | error e => simp [hop, withBackoffLoop]
  · intro cfg op c rnd hA
    have hfuel : cfg.Attempts.toNat = 0 := by omega
    unfold WithBackoff
    rw [hfuel]
    simp [withBackoffLoop]

/-- `nextDelay` is exactly "multiply, then cap at `MaxDelay`". -/
lemma nextDelay_eq_min (cfg : Config) (d : ℚ) :
    nextDelay cfg d = min (d * cfg.Multiplier) cfg.MaxDelay := by
  unfold nextDelay
  rcases le_or_lt (d * cfg.Multiplier) cfg.MaxDelay with h | h
  · rw [if_neg (not_lt.mpr h), min_eq_left h]
  · rw [if_pos h, min_eq_right h.le]

/-- C7 counterexample: with `InitialDelay = 200`ns and `MaxDelay = 100`ns
(multiplier 2, no jitter), the delay the loop actually holds before the
first retry is the uncapped `InitialDelay = 200`, not the claimed
`min(initialDelay * multiplier^0, maxDelay) = 100`; correspondingly an
always-failing 3-attempt run sleeps `[200, 100]` — its first sleep exceeds
`MaxDelay`. -/
theorem retry_delay_formula_cex :
    computedDelay ⟨3, 200, 100, 2, 0⟩ 0 ≠ specDelay ⟨3, 200, 100, 2, 0⟩ 1
    ∧ (WithBackoff (ε := Unit) (T := Unit) ⟨3, 200, 100, 2, 0⟩ (fun _ => Except.error ())
        none (fun _ => 0)).sleeps = [200, 100] := by
  constructor
  · norm_num [computedDelay, specDelay]
  · norm_num [WithBackoff, withBackoffLoop, ctxDone, actualDelay, nextDelay]

/-- C7 amended: the delay before the k-th retry follows the recurrence
`d 1 = InitialDelay` (uncapped), `d (k+1) = min(d k * Multiplier,
MaxDelay)`; whenever `Multiplier ≥ 1` and `0 ≤ InitialDelay ≤ MaxDelay`
this equals the spec's closed form `min(InitialDelay * Multiplier^(k-1),
MaxDelay)`.  The realized delay is the computed delay plus an additive
jitter `rand * delay * RandomFactor`: for `rand ∈ [0, 1)` and
`RandomFactor ≥ 0` the realized delay lies between the computed delay and
`(1 + RandomFactor)` times it — never shorter.  And the sleeps an
always-failing, never-cancelled run performs are exactly those jittered
computed delays, one per retry. -/
theorem retry_delay_formula_amended {ε : Type} :
    (∀ (cfg : Config), 1 ≤ cfg.Multiplier → 0 ≤ cfg.InitialDelay →
        cfg.InitialDelay ≤ cfg.MaxDelay →
        ∀ j : Nat, computedDelay cfg j = specDelay cfg (j + 1))
    ∧ (∀ (cfg : Config) (r d : ℚ), 0 ≤ r → r < 1 → 0 ≤ cfg.RandomFactor → 0 ≤ d →
        d ≤ actualDelay cfg r d ∧ actualDelay cfg r d ≤ d + cfg.RandomFactor * d)
    ∧ (∀ (e : ε) (cfg : Config) (rnd : Nat → ℚ),
        (WithBackoff (T := Unit) cfg (fun _ => Except.error e) none rnd).sleeps
          = (List.range (cfg.Attempts.toNat - 1)).map
              (fun j => actualDelay cfg (rnd (j + 1)) (computedDelay cfg j))) := by
  refine ⟨?_, ?_, ?_⟩
  · intro cfg hm h0 hmax j
    have hm0 : (0 : ℚ) ≤ cfg.Multiplier := le_trans zero_le_one hm
    have hmax0 : (0 : ℚ) ≤ cfg.MaxDelay := le_trans h0 hmax
    induction j with
    | zero => simp [computedDelay, specDelay, min_eq_left hmax]
    | succ j ih =>
      have hiter : computedDelay cfg (j + 1) = nextDelay cfg (computedDelay cfg j) :=
        Function.iterate_succ_apply' _ _ _
      rw [hiter, ih, nextDelay_eq_min]
      have hpow : (0 : ℚ) ≤ cfg.InitialDelay * cfg.Multiplier ^ j :=
        mul_nonneg h0 (pow_nonneg hm0 j)
      simp only [specDelay, Nat.add_sub_cancel]
      rcases le_or_lt (cfg.InitialDelay * cfg.Multiplier ^ j) cfg.MaxDelay with hc | hc
      · rw [min_eq_left hc, pow_succ, ← mul_assoc]
      · have h1 : cfg.MaxDelay ≤ cfg.MaxDelay * cfg.Multiplier :=
          le_mul_of_one_le_right hmax0 hm
        have h2 : cfg.InitialDelay * cfg.Multiplier ^ j
            ≤ cfg.InitialDelay * cfg.Multiplier ^ (j + 1) := by
          rw [pow_succ, ← mul_assoc]
          exact le_mul_of_one_le_right hpow hm
        rw [min_eq_right hc.le, min_eq_right h1, min_eq_right (le_trans hc.le h2)]
  · intro cfg r d hr0 hr1 hrf hd
    constructor
    · have hj : 0 ≤ r * d * cfg.RandomFactor := by positivity
      simp only [actualDelay]
      linarith
    · have h2 : 0 ≤ d * cfg.RandomFactor := mul_nonneg hd hrf
      have h1 : r * d * cfg.RandomFactor ≤ d * cfg.RandomFactor := by
        calc r * d * cfg.RandomFactor = r * (d * cfg.RandomFactor) := by ring
          _ ≤ 1 * (d * cfg.RandomFactor) := mul_le_mul_of_nonneg_right hr1.le h2
          _ = d * cfg.RandomFactor := one_mul _
      simp only [actualDelay]
      linarith [mul_comm d cfg.RandomFactor]
  · intro e cfg rnd
    unfold WithBackoff
    cases hA : cfg.Attempts.toNat with
    | zero => simp [withBackoffLoop]
    | succ f =>
      simp only [withBackoffLoop, ctxDone]
      rw [if_neg (by decide), if_pos trivial]
      show (withBackoffLoop (T := Unit) cfg (fun _ => Except.error e) none rnd f 1
          cfg.InitialDelay 0 (some e) 1 []).sleeps = _
      rw [withBackoffLoop_fail_sleeps cfg e rnd f 1 cfg.InitialDelay 0 (some e) 1 []
        (by norm_num)]
      simp only [List.reverse_nil, List.nil_append, Nat.add_sub_cancel]
      refine List.map_congr_left fun j _ => ?_
      have harg : 1 + j = j + 1 := by omega
      rw [harg]
      rfl

/-- Witness for C7 (amended): delay formula at `⟨3, 100, 250, 2, 0⟩` for
the third retry, jitter bounds at `rand = 1/2`, `RandomFactor = 1/10`,
`delay = 100`, and the sleeps characterization of a failing 3-attempt
run. -/
theorem retry_delay_formula_amended_witness :
    computedDelay ⟨3, 100, 250, 2, 0⟩ 2 = specDelay ⟨3, 100, 250, 2, 0⟩ 3
    ∧ ((100 : ℚ) ≤ actualDelay ⟨3, 100, 250, 2, 1/10⟩ (1/2) 100
        ∧ actualDelay ⟨3, 100, 250, 2, 1/10⟩ (1/2) 100
            ≤ 100 + (⟨3, 100, 250, 2, 1/10⟩ : Config).RandomFactor * 100)
    ∧ (WithBackoff (ε := Unit) (T := Unit) ⟨3, 100, 250, 2, 0⟩ (fun _ => Except.error ())
        none (fun _ => 0)).sleeps
      = (List.range ((⟨3, 100, 250, 2, 0⟩ : Config).Attempts.toNat - 1)).map
          (fun j => actualDelay ⟨3, 100, 250, 2, 0⟩ ((fun _ => (0 : ℚ)) (j + 1))
            (computedDelay ⟨3, 100, 250, 2, 0⟩ j)) :=
  ⟨(retry_delay_formula_amended (ε := Unit)).1 ⟨3, 100, 250, 2, 0⟩ (by norm_num)
      (by norm_num) (by norm_num) 2,
   (retry_delay_formula_amended (ε := Unit)).2.1 ⟨3, 100, 250, 2, 1/10⟩ (1/2) 100
      (by norm_num) (by norm_num) (by norm_num) (by norm_num),
   (retry_delay_formula_amended (ε := Unit)).2.2 () ⟨3, 100, 250, 2, 0⟩ (fun _ => 0)⟩

/-- Witness for C8 (amended): `Attempts = 1` with a succeeding operation
gives exactly one invocation and its value; `Attempts = -3` gives zero
invocations and a nil error. -/
theorem retry_attempts_le_one_amended_witness :
    WithBackoff (ε := Unit) (T := Unit) ⟨1, 100, 1000, 2, 0⟩ (fun _ => Except.ok ())
        none (fun _ => 0)
      = ⟨match (fun _ => Except.ok ()) 1 with
         | .ok t => .success t
         | .error e => .exhausted (some e), 1, []⟩
    ∧ WithBackoff (ε := Unit) (T := Unit) ⟨-3, 100, 1000, 2, 0⟩ (fun _ => Except.ok ())
        none (fun _ => 0) = ⟨.exhausted none, 0, []⟩ :=
  ⟨retry_attempts_le_one_amended.1 ⟨1, 100, 1000, 2, 0⟩ (fun _ => Except.ok ())
      none (fun _ => 0) (by norm_num) rfl,
   retry_attempts_le_one_amended.2 ⟨-3, 100, 1000, 2, 0⟩ (fun _ => Except.ok ())
      none (fun _ => 0) (by norm_num)⟩

end retry

end Spec2Proof
